import Mathlib

/-!
Verification of the vertical-corpus reader in corpy/vertical/__init__.py.

The embedding models the structural-tag state machine and position
streamer (Vertical.positions), the indexer (Vertical.search) and the two
statistics (ipm, arf).  Real-valued arithmetic (Python floats) is modelled
over the rationals; Python exceptions are modelled by explicit error
values; the regex _struct_re is modelled at the granularity of its match
result: a raw line is either a structural line carrying the four match
groups (closing-flag, tag name, self-closing-flag, raw attribute text) or
a content line.
-/

namespace Corpy

/-- Value stored in the open-tag context for one tag.  With
parse_sattrs=False the code stores match group 4 unmodified (possibly
None, hence Option); with parse_sattrs=True it stores the dict produced
by re.finditer over the raw attribute text. -/
inductive AttrVal where
  | raw (s : Option String)
  | parsed (pairs : List (String × String))
deriving DecidableEq

/-- The open-tag context self.sattrs: a Python dict from tag name to the
attribute value stored at the opening tag, modelled as an
insertion-ordered association list. -/
abbrev Sattrs := List (String × AttrVal)

/-- One parsed content position: the tab-separated fields of the line
(the namedtuple Position created by parse_position). -/
abbrev Position := List String

/-- One input line, after the match of _struct_re: either a structural
tag line with the four regex groups, or a content line (a line the regex
does not fully match). -/
inductive VLine where
  | structLine (close : Bool) (tag : String) (selfClose : Bool) (attrs : Option String)
  | contentLine (raw : String)
deriving DecidableEq

/-- Scan for the closing quote of an attribute value: the lazy group
regex fragment that matches value characters up to the first quote. -/
def takeValue (acc : List Char) : List Char → Option (String × List Char)
  | [] => none
  | c :: rest =>
    if c = '"' then some (String.mk acc.reverse, rest)
    else takeValue (c :: acc) rest

/-- Try to match one key="value" attribute at the current point of the
raw attribute text, as the finditer pattern does: a nonempty run of
non-space characters up to the first = that is immediately followed by a
quote, then the quoted value. -/
def takeKey (acc : List Char) : List Char → Option (String × String × List Char)
  | [] => none
  | c :: rest =>
    if c.isWhitespace then none
    else if c = '=' then
      match rest with
      | '"' :: rest2 =>
        if acc.isEmpty then none
        else
          match takeValue [] rest2 with
          | some (v, rest3) => some (String.mk acc.reverse, v, rest3)
          | none => none
      | _ => takeKey (c :: acc) rest
    else takeKey (c :: acc) rest

/-- Driver of the finditer scan over the raw attribute text: advance one
character at a time, emitting each key="value" match. -/
def scanAttrsAux : Nat → List Char → List (String × String)
  | 0, _ => []
  | _ + 1, [] => []
  | fuel + 1, c :: rest =>
    if c.isWhitespace then scanAttrsAux fuel rest
    else
      match takeKey [] (c :: rest) with
      | some (k, v, rest2) => (k, v) :: scanAttrsAux fuel rest2
      | none => scanAttrsAux fuel rest

/-- Embeds re.finditer over the raw attribute text, collecting the
key="value" pairs into the dict stored in sattrs. -/
def findAttrPairs (s : String) : List (String × String) :=
  scanAttrsAux s.toList.length s.toList

/-- Value stored into sattrs at an opening tag: the parsed dict when
parse_sattrs is set (with None treated as the empty string, as in the
code), otherwise the raw match group. -/
def storeAttrs (parse : Bool) (attrs : Option String) : AttrVal :=
  if parse then .parsed (findAttrPairs (attrs.getD "")) else .raw attrs

/-- Python dict lookup on the open-tag context (tag in self.sattrs /
self.sattrs[tag]). -/
def slookup (t : String) : Sattrs → Option AttrVal
  | [] => none
  | (k, v) :: rest => if k = t then some v else slookup t rest

/-- Python dict pop on the open-tag context (self.sattrs.pop(tag)
removes the binding of tag). -/
def spop (t : String) : Sattrs → Sattrs
  | [] => []
  | (k, v) :: rest => if k = t then rest else (k, v) :: spop t rest

/-- Embeds the Python str.split of the content line on the tab
character: every tab ends a field, empty fields are kept. -/
def splitTabs : List Char → List (List Char)
  | [] => [[]]
  | c :: rest =>
    match splitTabs rest with
    | [] => [[c]]
    | f :: fs => if c = '\t' then [] :: f :: fs else (c :: f) :: fs

/-- Embeds Vertical.parse_position: split the content line on tabs and
build the fixed-arity Position record.  A field count different from the
declared arity raises (namedtuple arity mismatch), modelled as none. -/
def parse_position (posattrs : List String) (raw : String) : Option Position :=
  let fields := (splitTabs raw.toList).map (fun l => String.mk l)
  if fields.length = posattrs.length then some fields else none

/-- One observable event of the position stream: either a call of the
hook function or a yielded position, together with the 0-based input
line index and the open-tag context at that moment. -/
structure Event where
  isHook : Bool
  idx : Nat
  pos : Position
  ctx : Sattrs
deriving DecidableEq

/-- Python exceptions that Vertical.positions can raise: KeyError from
self.sattrs.pop on a tag that is not open, the explicit nested-tag
Exception, and the arity mismatch from parse_position. -/
inductive VertError where
  | keyError (tag : String)
  | nestedTag (tag : String)
  | arityError (line : String)
deriving DecidableEq

/-- The test `not (ignore_fn and ignore_fn(position, sattrs))` guarding
the yield: with no ignore function every position passes. -/
def ignoreTest (ign : Option (Position → Sattrs → Bool)) (p : Position) (s : Sattrs) : Bool :=
  match ign with
  | some f => f p s
  | none => false

/-- Result of running the positions generator to completion or to its
first exception: the events delivered before stopping, the exception if
one was raised, and the final value of self.sattrs. -/
structure RunResult where
  events : List Event
  error : Option VertError
  final : Sattrs
deriving DecidableEq

/-- Embeds the per-line loop of Vertical.positions, starting from the
given open-tag context and input line index.  For each line: a
structural line updates sattrs (pop on a closing tag, no change on a
self-closing tag, guarded insert on an opening tag); a content line is
parsed, passed to the hook when one is supplied, and yielded unless the
ignore predicate holds. -/
def runLines (parse : Bool) (posattrs : List String)
    (ign : Option (Position → Sattrs → Bool)) (hookOn : Bool) :
    Sattrs → Nat → List VLine → RunResult
  | sattrs, _, [] => ⟨[], none, sattrs⟩
  | sattrs, i, .structLine close tag selfClose attrs :: rest =>
    if close then
      match slookup tag sattrs with
      | none => ⟨[], some (.keyError tag), sattrs⟩
      | some _ => runLines parse posattrs ign hookOn (spop tag sattrs) (i + 1) rest
    else if selfClose then
      runLines parse posattrs ign hookOn sattrs (i + 1) rest
    else if (slookup tag sattrs).isSome then ⟨[], some (.nestedTag tag), sattrs⟩
    else runLines parse posattrs ign hookOn
      (sattrs ++ [(tag, storeAttrs parse attrs)]) (i + 1) rest
  | sattrs, i, .contentLine raw :: rest =>
    match parse_position posattrs raw with
    | none => ⟨[], some (.arityError raw), sattrs⟩
    | some p =>
      let r := runLines parse posattrs ign hookOn sattrs (i + 1) rest
      ⟨(if hookOn then [⟨true, i, p, sattrs⟩] else []) ++
        (if ignoreTest ign p sattrs then [] else [⟨false, i, p, sattrs⟩]) ++ r.events,
        r.error, r.final⟩

/-- Embeds one full invocation of Vertical.positions: the generator
starts with self.sattrs = the empty dict and processes the whole input. -/
def positionsRun (parse : Bool) (posattrs : List String)
    (ign : Option (Position → Sattrs → Bool)) (hookOn : Bool)
    (lines : List VLine) : RunResult :=
  runLines parse posattrs ign hookOn [] 0 lines

/-- Embeds Vertical.positions as a method of an object whose only
relevant state is the self.sattrs attribute left by earlier calls: the
generator body begins with self.sattrs = the empty dict, so the incoming
state is discarded. -/
def positionsMethod (selfSattrs : Sattrs) (parse : Bool) (posattrs : List String)
    (ign : Option (Position → Sattrs → Bool)) (hookOn : Bool)
    (lines : List VLine) : RunResult :=
  runLines parse posattrs ign hookOn [] 0 lines

/-- The positions actually yielded to the consumer, with the open-tag
context visible at each yield. -/
def yieldsOf (evs : List Event) : List (Position × Sattrs) :=
  evs.filterMap (fun e => if e.isHook then none else some (e.pos, e.ctx))

/-- The hook invocations of a run, in order. -/
def hooksOf (evs : List Event) : List Event :=
  evs.filter (fun e => e.isHook)

/-- Predicate on lines carrying a content position. -/
def VLine.isContent : VLine → Bool
  | .structLine _ _ _ _ => false
  | .contentLine _ => true

/-- Number of content lines of the input. -/
def countContent (lines : List VLine) : Nat :=
  lines.countP VLine.isContent

/-- Return value of the count function in Vertical.search: either a
single key or a list of keys, each of which receives the offset. -/
inductive CountVal (K : Type) where
  | single (k : K)
  | multi (ks : List K)

/-- defaultdict(list) update index[c].append(i): append the offset to
the list bound to the key, creating the binding on first use. -/
def appendAt {K : Type} [DecidableEq K] :
    List (K × List Nat) → K → Nat → List (K × List Nat)
  | [], k, i => [(k, [i])]
  | (k0, l) :: rest, k, i =>
    if k0 = k then (k0, l ++ [i]) :: rest else (k0, l) :: appendAt rest k i

/-- Body of one iteration of the search loop at offset i: when the match
predicate holds, record the offset under the key or keys produced by the
count function. -/
def indexStep {K : Type} [DecidableEq K] (match_fn : Position → Sattrs → Bool)
    (count_fn : Position → Sattrs → CountVal K)
    (idx : List (K × List Nat)) (i : Nat) (ps : Position × Sattrs) :
    List (K × List Nat) :=
  if match_fn ps.1 ps.2 then
    match count_fn ps.1 ps.2 with
    | .single c => appendAt idx c i
    | .multi cs => cs.foldl (fun a c => appendAt a c i) idx
  else idx

/-- The enumerate loop of Vertical.search: fold the index-building step
over the yielded positions with a running 0-based offset counter. -/
def buildIndexFrom {K : Type} [DecidableEq K] (match_fn : Position → Sattrs → Bool)
    (count_fn : Position → Sattrs → CountVal K) :
    Nat → List (Position × Sattrs) → List (K × List Nat) → List (K × List Nat)
  | _, [], idx => idx
  | i, ps :: ys, idx =>
    buildIndexFrom match_fn count_fn (i + 1) ys (indexStep match_fn count_fn idx i ps)

/-- Failures of Vertical.search: an exception propagating out of the
position stream, or the NameError raised by the return statement when
the loop variable i was never bound because the stream yielded nothing. -/
inductive SearchError where
  | streamError (e : VertError)
  | nameError
deriving DecidableEq

/-- Embeds Vertical.search: iterate the position stream with enumerate,
build the index, and return it together with the final value of the
loop counter i.  When the count function is omitted the code reuses the
match function as count function; callers here pass count_fn
explicitly. -/
def search {K : Type} [DecidableEq K] (match_fn : Position → Sattrs → Bool)
    (count_fn : Position → Sattrs → CountVal K)
    (parse : Bool) (posattrs : List String)
    (ign : Option (Position → Sattrs → Bool)) (hookOn : Bool)
    (lines : List VLine) : Except SearchError (List (K × List Nat) × Nat) :=
  let r := positionsRun parse posattrs ign hookOn lines
  let ys := yieldsOf r.events
  match r.error with
  | some e => .error (.streamError e)
  | none =>
    match ys.length with
    | 0 => .error .nameError
    | n + 1 => .ok (buildIndexFrom match_fn count_fn 0 ys [], n)

/-- Embeds np.roll(occurrences, 1): rotate the list one step to the
right, so entry k holds the previous occurrence and entry 0 the last. -/
def roll1 (l : List Int) : List Int :=
  match l.getLast? with
  | none => []
  | some x => x :: l.dropLast

/-- Python ZeroDivisionError. -/
inductive ArithError where
  | zeroDivision
deriving DecidableEq

/-- Embeds ipm: instances per million, 1e6 * len(occurrences) / N, with
the division by N = 0 raising ZeroDivisionError. -/
def ipm (occurrences : List Int) (N : Int) : Except ArithError ℚ :=
  if N = 0 then .error .zeroDivision
  else .ok (1000000 * (occurrences.length : ℚ) / (N : ℚ))

/-- Embeds arf: average reduced frequency.  Each circular distance to
the previous occurrence, computed modulo N, is saturated at the average
distance N / freq, and the saturated distances are summed and divided by
the average distance.  An empty occurrence list returns 0. -/
def arf (occurrences : List Int) (N : Int) : ℚ :=
  let freq := occurrences.length
  if freq = 0 then 0
  else
    let shifted := roll1 occurrences
    let distances := List.zipWith (fun a b => (a - b) % N) occurrences shifted
    let avg_dist : ℚ := (N : ℚ) / (freq : ℚ)
    (distances.map (fun d => min ((d : ℤ) : ℚ) avg_dist)).sum / avg_dist

/-- Written from the claim: ARF as the indexed formula, summing over all
k the saturated circular distance from occurrence k-1 (index wrapping to
freq-1 for k = 0) to occurrence k, divided by the average distance. -/
def arfClaimFormula (occurrences : List Int) (N : Int) : ℚ :=
  let freq := occurrences.length
  let avg_dist : ℚ := (N : ℚ) / (freq : ℚ)
  (∑ k : Fin freq,
      min (((occurrences.get k -
        occurrences.get ⟨(k.val + freq - 1) % freq, Nat.mod_lt _ k.pos⟩) % N : ℤ) : ℚ)
        avg_dist) / avg_dist

/-- Lines that modify or could modify the open-tag context entry of tag
t: closing lines for t, and opening (non-self-closing) lines for t.
Self-closing lines and content lines touch nothing. -/
def isTagEvent (t : String) : VLine → Bool
  | .structLine close tag selfClose _ => tag == t && (close || !selfClose)
  | .contentLine _ => false

/-- Declarative open-tag context after a processed line list: tag t is
open with the attributes of its opening line exactly when the most
recent structural event for t is an opening tag. -/
def openAttrSpec (parse : Bool) (done : List VLine) (t : String) : Option AttrVal :=
  match done.reverse.find? (isTagEvent t) with
  | some (.structLine close _ _ attrs) =>
    if close then none else some (storeAttrs parse attrs)
  | _ => none

/-- Keys of the open-tag context are pairwise distinct: the dict
invariant maintained by the stream. -/
def keysNodup (s : Sattrs) : Prop :=
  (s.map Prod.fst).Nodup

/-- Membership of a key in the value of the count function. -/
def keyMem {K : Type} (k : K) : CountVal K → Prop
  | .single c => k = c
  | .multi cs => k ∈ cs

/-- Sequencing of two stream segments: if the first segment raised, its
result stands (later lines are never reached); otherwise the second
segment continues from the final open-tag context of the first, and the
delivered events are concatenated. -/
def seqResult (r1 : RunResult) (k : Sattrs → RunResult) : RunResult :=
  match r1.error with
  | some _ => r1
  | none => ⟨r1.events ++ (k r1.final).events, (k r1.final).error, (k r1.final).final⟩

theorem runLines_nil (parse : Bool) (posattrs : List String)
    (ign : Option (Position → Sattrs → Bool)) (hookOn : Bool)
    (sattrs : Sattrs) (i : Nat) :
    runLines parse posattrs ign hookOn sattrs i [] = ⟨[], none, sattrs⟩ := rfl

theorem runLines_close (parse : Bool) (posattrs : List String)
    (ign : Option (Position → Sattrs → Bool)) (hookOn : Bool)
    (sattrs : Sattrs) (i : Nat) (tag : String) (sc : Bool)
    (attrs : Option String) (rest : List VLine) :
    runLines parse posattrs ign hookOn sattrs i (.structLine true tag sc attrs :: rest) =
      match slookup tag sattrs with
      | none => ⟨[], some (.keyError tag), sattrs⟩
      | some _ => runLines parse posattrs ign hookOn (spop tag sattrs) (i + 1) rest := rfl

theorem runLines_selfclose (parse : Bool) (posattrs : List String)
    (ign : Option (Position → Sattrs → Bool)) (hookOn : Bool)
    (sattrs : Sattrs) (i : Nat) (tag : String)
    (attrs : Option String) (rest : List VLine) :
    runLines parse posattrs ign hookOn sattrs i (.structLine false tag true attrs :: rest) =
      runLines parse posattrs ign hookOn sattrs (i + 1) rest := rfl

theorem runLines_open (parse : Bool) (posattrs : List String)
    (ign : Option (Position → Sattrs → Bool)) (hookOn : Bool)
    (sattrs : Sattrs) (i : Nat) (tag : String)
    (attrs : Option String) (rest : List VLine) :
    runLines parse posattrs ign hookOn sattrs i (.structLine false tag false attrs :: rest) =
      (if (slookup tag sattrs).isSome then ⟨[], some (.nestedTag tag), sattrs⟩
        else runLines parse posattrs ign hookOn
          (sattrs ++ [(tag, storeAttrs parse attrs)]) (i + 1) rest) := rfl

theorem runLines_content (parse : Bool) (posattrs : List String)
    (ign : Option (Position → Sattrs → Bool)) (hookOn : Bool)
    (sattrs : Sattrs) (i : Nat) (raw : String) (rest : List VLine) :
    runLines parse posattrs ign hookOn sattrs i (.contentLine raw :: rest) =
      match parse_position posattrs raw with
      | none => ⟨[], some (.arityError raw), sattrs⟩
      | some p =>
        ⟨(if hookOn then [⟨true, i, p, sattrs⟩] else []) ++
          (if ignoreTest ign p sattrs then [] else [⟨false, i, p, sattrs⟩]) ++
          (runLines parse posattrs ign hookOn sattrs (i + 1) rest).events,
          (runLines parse posattrs ign hookOn sattrs (i + 1) rest).error,
          (runLines parse posattrs ign hookOn sattrs (i + 1) rest).final⟩ := rfl

theorem slookup_eq_none (t : String) :
    ∀ s : Sattrs, slookup t s = none ↔ t ∉ s.map Prod.fst := by
  intro s
  induction s with
  | nil => simp [slookup]
  | cons kv rest ih =>
    obtain ⟨k, v⟩ := kv
    by_cases hk : k = t
    · subst hk
      simp [slookup]
    · simp [slookup, hk, ih, Ne.symm hk]

theorem spop_sublist (t : String) : ∀ s : Sattrs, (spop t s).Sublist s := by
  intro s
  induction s with
  | nil => simp [spop]
  | cons kv rest ih =>
    obtain ⟨k, v⟩ := kv
    by_cases hk : k = t
    · simp [spop, hk]
    · simpa [spop, hk] using ih.cons₂ (k, v)

theorem keysNodup_spop (t : String) (s : Sattrs) (h : keysNodup s) :
    keysNodup (spop t s) :=
  List.Nodup.sublist (List.Sublist.map Prod.fst (spop_sublist t s)) h

theorem slookup_spop_self (t : String) :
    ∀ s : Sattrs, keysNodup s → slookup t (spop t s) = none := by
  intro s
  induction s with
  | nil => simp [spop, slookup]
  | cons kv rest ih =>
    obtain ⟨k, v⟩ := kv
    intro h
    rw [keysNodup, List.map_cons, List.nodup_cons] at h
    by_cases hk : k = t
    · simp only [spop, if_pos hk]
      exact (slookup_eq_none t rest).mpr (hk ▸ h.1)
    · simp only [spop, if_neg hk, slookup, if_neg hk]
      exact ih h.2

theorem slookup_spop_ne (t t' : String) (h : t' ≠ t) :
    ∀ s : Sattrs, slookup t' (spop t s) = slookup t' s := by
  intro s
  induction s with
  | nil => simp [spop]
  | cons kv rest ih =>
    obtain ⟨k, v⟩ := kv
    by_cases hk : k = t
    · subst hk
      rw [spop, if_pos rfl, slookup, if_neg (fun hh => h hh.symm)]
    · rw [spop, if_neg hk, slookup, slookup]
      by_cases hk2 : k = t'
      · simp [hk2]
      · simp [hk2, ih]

theorem slookup_append_of_some (t : String) (v : AttrVal) :
    ∀ (s1 s2 : Sattrs), slookup t s1 = some v → slookup t (s1 ++ s2) = some v := by
  intro s1 s2 h
  induction s1 with
  | nil => simp [slookup] at h
  | cons kv rest ih =>
    obtain ⟨k, w⟩ := kv
    rw [slookup] at h
    by_cases hk : k = t
    · rw [if_pos hk] at h
      rw [List.cons_append, slookup, if_pos hk]
      exact h
    · rw [if_neg hk] at h
      rw [List.cons_append, slookup, if_neg hk]
      exact ih h

theorem slookup_append_of_none (t : String) :
    ∀ (s1 s2 : Sattrs), slookup t s1 = none → slookup t (s1 ++ s2) = slookup t s2 := by
  intro s1 s2 h
  induction s1 with
  | nil => simp
  | cons kv rest ih =>
    obtain ⟨k, w⟩ := kv
    rw [slookup] at h
    by_cases hk : k = t
    · rw [if_pos hk] at h
      exact absurd h (by simp)
    · rw [if_neg hk] at h
      rw [List.cons_append, slookup, if_neg hk]
      exact ih h

theorem keysNodup_append_single (t : String) (v : AttrVal) (s : Sattrs)
    (h : keysNodup s) (hnone : slookup t s = none) :
    keysNodup (s ++ [(t, v)]) := by
  rw [keysNodup, List.map_append]
  simp only [List.map_cons, List.map_nil]
  rw [List.nodup_append]
  refine ⟨h, List.nodup_singleton t, ?_⟩
  intro a ha hb
  rw [List.mem_singleton] at hb
  exact (slookup_eq_none t s).mp hnone (hb ▸ ha)

theorem openAttrSpec_nil (parse : Bool) (t : String) :
    openAttrSpec parse [] t = none := rfl

theorem openAttrSpec_append (parse : Bool) (done : List VLine) (l : VLine) (t : String) :
    openAttrSpec parse (done ++ [l]) t =
      if isTagEvent t l then
        (match l with
          | .structLine close _ _ attrs =>
            if close then none else some (storeAttrs parse attrs)
          | .contentLine _ => none)
      else openAttrSpec parse done t := by
  rw [openAttrSpec, List.reverse_append, List.reverse_singleton, List.singleton_append]
  by_cases h : isTagEvent t l
  · rw [List.find?_cons_of_pos _ h, if_pos h]
    cases l <;> rfl
  · rw [List.find?_cons_of_neg _ (by simpa using h), if_neg h, openAttrSpec]

theorem inv_step_close (parse : Bool) (done : List VLine) (sattrs : Sattrs)
    (tag : String) (sc : Bool) (attrs : Option String)
    (hnd : keysNodup sattrs)
    (hinv : ∀ t, slookup t sattrs = openAttrSpec parse done t) :
    ∀ t, slookup t (spop tag sattrs) =
      openAttrSpec parse (done ++ [.structLine true tag sc attrs]) t := by
  intro t
  rw [openAttrSpec_append]
  by_cases ht : tag = t
  · subst ht
    rw [if_pos (by simp [isTagEvent])]
    exact slookup_spop_self tag sattrs hnd
  · rw [if_neg (by simp [isTagEvent, ht])]
    rw [slookup_spop_ne tag t (fun hh => ht hh.symm)]
    exact hinv t

theorem inv_step_open (parse : Bool) (done : List VLine) (sattrs : Sattrs)
    (tag : String) (attrs : Option String)
    (hnone : slookup tag sattrs = none)
    (hinv : ∀ t, slookup t sattrs = openAttrSpec parse done t) :
    ∀ t, slookup t (sattrs ++ [(tag, storeAttrs parse attrs)]) =
      openAttrSpec parse (done ++ [.structLine false tag false attrs]) t := by
  intro t
  rw [openAttrSpec_append]
  by_cases ht : tag = t
  · subst ht
    rw [if_pos (by simp [isTagEvent])]
    rw [slookup_append_of_none tag sattrs _ hnone]
    simp [slookup]
  · rw [if_neg (by simp [isTagEvent, ht])]
    rw [← hinv t]
    cases hv : slookup t sattrs with
    | some v => exact slookup_append_of_some t v sattrs _ hv
    | none =>
      rw [slookup_append_of_none t sattrs _ hv]
      simp [slookup, ht]

theorem inv_step_selfclose (parse : Bool) (done : List VLine) (sattrs : Sattrs)
    (tag : String) (attrs : Option String)
    (hinv : ∀ t, slookup t sattrs = openAttrSpec parse done t) :
    ∀ t, slookup t sattrs =
      openAttrSpec parse (done ++ [.structLine false tag true attrs]) t := by
  intro t
  rw [openAttrSpec_append, if_neg (by simp [isTagEvent])]
  exact hinv t

theorem inv_step_content (parse : Bool) (done : List VLine) (sattrs : Sattrs)
    (raw : String)
    (hinv : ∀ t, slookup t sattrs = openAttrSpec parse done t) :
    ∀ t, slookup t sattrs = openAttrSpec parse (done ++ [.contentLine raw]) t := by
  intro t
  rw [openAttrSpec_append, if_neg (by simp [isTagEvent])]
  exact hinv t

theorem runLines_ctx_spec (parse : Bool) (posattrs : List String)
    (ign : Option (Position → Sattrs → Bool)) (hookOn : Bool) :
    ∀ (rest done : List VLine) (sattrs : Sattrs),
      keysNodup sattrs →
      (∀ t, slookup t sattrs = openAttrSpec parse done t) →
      ∀ e ∈ (runLines parse posattrs ign hookOn sattrs done.length rest).events,
        ∀ t, slookup t e.ctx = openAttrSpec parse ((done ++ rest).take e.idx) t := by
  intro rest
  induction rest with
  | nil =>
    intro done sattrs _ _ e he
    simp [runLines] at he
  | cons l rest ih =>
    intro done sattrs hnd hinv e he t
    cases l with
    | structLine close tag selfClose attrs =>
      have happ : done ++ VLine.structLine close tag selfClose attrs :: rest =
          (done ++ [VLine.structLine close tag selfClose attrs]) ++ rest := by simp
      rw [happ]
      cases close with
      | true =>
        simp only [runLines, if_pos rfl] at he
        cases hl : slookup tag sattrs with
        | none => rw [hl] at he; simp at he
        | some v =>
          rw [hl] at he
          have hlen : done.length + 1 =
              (done ++ [VLine.structLine true tag selfClose attrs]).length := by simp
          rw [hlen] at he
          exact ih (done ++ [VLine.structLine true tag selfClose attrs])
            (spop tag sattrs) (keysNodup_spop tag sattrs hnd)
            (inv_step_close parse done sattrs tag selfClose attrs hnd hinv) e he t
      | false =>
        cases selfClose with
        | true =>
          simp only [runLines] at he
          simp only [Bool.false_eq_true, if_false, if_pos rfl] at he
          have hlen : done.length + 1 =
              (done ++ [VLine.structLine false tag true attrs]).length := by simp
          rw [hlen] at he
          exact ih (done ++ [VLine.structLine false tag true attrs]) sattrs hnd
            (inv_step_selfclose parse done sattrs tag attrs hinv) e he t
        | false =>
          simp only [runLines] at he
          simp only [Bool.false_eq_true, if_false] at he
          cases hl : slookup tag sattrs with
          | some v => rw [hl] at he; simp at he
          | none =>
            rw [hl] at he
            simp only [Option.isSome_none, Bool.false_eq_true, if_false] at he
            have hlen : done.length + 1 =
                (done ++ [VLine.structLine false tag false attrs]).length := by simp
            rw [hlen] at he
            exact ih (done ++ [VLine.structLine false tag false attrs])
              (sattrs ++ [(tag, storeAttrs parse attrs)])
              (keysNodup_append_single tag _ sattrs hnd hl)
              (inv_step_open parse done sattrs tag attrs hl hinv) e he t
    | contentLine raw =>
      have happ : done ++ VLine.contentLine raw :: rest =
          (done ++ [VLine.contentLine raw]) ++ rest := by simp
      rw [happ]
      simp only [runLines] at he
      cases hp : parse_position posattrs raw with
      | none => rw [hp] at he; simp at he
      | some p =>
        rw [hp] at he
        simp only [List.mem_append] at he
        have hrec : e ∈ (runLines parse posattrs ign hookOn sattrs (done.length + 1) rest).events →
            slookup t e.ctx =
              openAttrSpec parse (((done ++ [VLine.contentLine raw]) ++ rest).take e.idx) t := by
          intro hmem
          have hlen : done.length + 1 = (done ++ [VLine.contentLine raw]).length := by simp
          rw [hlen] at hmem
          exact ih (done ++ [VLine.contentLine raw]) sattrs hnd
            (inv_step_content parse done sattrs raw hinv) e hmem t
        have hcur : e.ctx = sattrs → e.idx = done.length →
            slookup t e.ctx =
              openAttrSpec parse (((done ++ [VLine.contentLine raw]) ++ rest).take e.idx) t := by
          intro h1 h2
          rw [h1, h2, List.append_assoc, List.take_left]
          exact hinv t
        rcases he with (he | he) | he
        · have he2 : e = (⟨true, done.length, p, sattrs⟩ : Event) := by
            by_cases hh : hookOn = true
            · rw [if_pos hh] at he
              simpa using he
            · rw [if_neg hh] at he
              simp at he
          exact hcur (by rw [he2]) (by rw [he2])
        · have he2 : e = (⟨false, done.length, p, sattrs⟩ : Event) := by
            by_cases hig : ignoreTest ign p sattrs = true
            · rw [if_pos hig] at he
              simp at he
            · rw [if_neg hig] at he
              simpa using he
          exact hcur (by rw [he2]) (by rw [he2])
        · exact hrec he


theorem yieldsOf_append (a b : List Event) :
    yieldsOf (a ++ b) = yieldsOf a ++ yieldsOf b := by
  simp [yieldsOf]

theorem countContent_cons_struct (c : Bool) (tg : String) (sc : Bool)
    (at0 : Option String) (rest : List VLine) :
    countContent (.structLine c tg sc at0 :: rest) = countContent rest := by
  simp [countContent, List.countP_cons, VLine.isContent]

theorem countContent_cons_content (raw : String) (rest : List VLine) :
    countContent (.contentLine raw :: rest) = countContent rest + 1 := by
  simp [countContent, List.countP_cons, VLine.isContent]

theorem runLines_yield_count (parse : Bool) (posattrs : List String) (hookOn : Bool) :
    ∀ (rest : List VLine) (sattrs : Sattrs) (i : Nat),
      (runLines parse posattrs none hookOn sattrs i rest).error = none →
      (yieldsOf (runLines parse posattrs none hookOn sattrs i rest).events).length =
        countContent rest := by
  intro rest
  induction rest with
  | nil =>
    intro sattrs i _
    simp [runLines_nil, yieldsOf, countContent]
  | cons l rest ih =>
    intro sattrs i herr
    cases l with
    | structLine close tag selfClose attrs =>
      rw [countContent_cons_struct]
      cases close with
      | true =>
        rw [runLines_close] at herr ⊢
        revert herr
        cases slookup tag sattrs with
        | none => intro herr; simp at herr
        | some v => intro herr; exact ih _ _ herr
      | false =>
        cases selfClose with
        | true =>
          rw [runLines_selfclose] at herr ⊢
          exact ih _ _ herr
        | false =>
          rw [runLines_open] at herr ⊢
          revert herr
          cases slookup tag sattrs with
          | some v => intro herr; simp at herr
          | none => intro herr; exact ih _ _ herr
    | contentLine raw =>
      rw [runLines_content] at herr ⊢
      rw [countContent_cons_content]
      revert herr
      cases parse_position posattrs raw with
      | none => intro herr; simp at herr
      | some p =>
        intro herr
        have herr2 : (runLines parse posattrs none hookOn sattrs (i + 1) rest).error = none := herr
        have hB : (if ignoreTest none p sattrs = true then ([] : List Event)
            else [(⟨false, i, p, sattrs⟩ : Event)]) = [⟨false, i, p, sattrs⟩] := rfl
        show (yieldsOf (((if hookOn = true then [(⟨true, i, p, sattrs⟩ : Event)] else []) ++
            (if ignoreTest none p sattrs = true then ([] : List Event)
              else [(⟨false, i, p, sattrs⟩ : Event)])) ++
            (runLines parse posattrs none hookOn sattrs (i + 1) rest).events)).length =
          countContent rest + 1
        rw [hB, yieldsOf_append, yieldsOf_append, List.length_append, List.length_append]
        have h1 : (yieldsOf (if hookOn = true then [(⟨true, i, p, sattrs⟩ : Event)]
            else [])).length = 0 := by
          by_cases hh : hookOn = true
          · rw [if_pos hh]; simp [yieldsOf]
          · rw [if_neg hh]; simp [yieldsOf]
        have h2 : (yieldsOf [(⟨false, i, p, sattrs⟩ : Event)]).length = 1 := by
          simp [yieldsOf]
        rw [h1, h2, ih _ _ herr2]
        omega

theorem runLines_events_content (parse : Bool) (posattrs : List String)
    (ign : Option (Position → Sattrs → Bool)) (hookOn : Bool) :
    ∀ (rest : List VLine) (sattrs : Sattrs) (i : Nat),
      ∀ e ∈ (runLines parse posattrs ign hookOn sattrs i rest).events,
        i ≤ e.idx ∧ ∃ raw, rest.get? (e.idx - i) = some (.contentLine raw) ∧
          parse_position posattrs raw = some e.pos := by
  intro rest
  induction rest with
  | nil =>
    intro sattrs i e he
    simp [runLines_nil] at he
  | cons l rest ih =>
    intro sattrs i e he
    have hstep : ∀ s2 : Sattrs,
        e ∈ (runLines parse posattrs ign hookOn s2 (i + 1) rest).events →
        i ≤ e.idx ∧ ∃ raw, (l :: rest).get? (e.idx - i) = some (.contentLine raw) ∧
          parse_position posattrs raw = some e.pos := by
      intro s2 hmem
      obtain ⟨hle, raw, hget, hp⟩ := ih s2 (i + 1) e hmem
      refine ⟨by omega, raw, ?_, hp⟩
      have hidx : e.idx - i = (e.idx - (i + 1)) + 1 := by omega
      rw [hidx, List.get?_cons_succ]
      exact hget
    cases l with
    | structLine close tag selfClose attrs =>
      cases close with
      | true =>
        rw [runLines_close] at he
        revert he
        cases slookup tag sattrs with
        | none => intro he; simp at he
        | some v => intro he; exact hstep _ he
      | false =>
        cases selfClose with
        | true =>
          rw [runLines_selfclose] at he
          exact hstep _ he
        | false =>
          rw [runLines_open] at he
          revert he
          cases slookup tag sattrs with
          | some v => intro he; simp at he
          | none => intro he; exact hstep _ he
    | contentLine raw =>
      rw [runLines_content] at he
      revert he
      cases hp : parse_position posattrs raw with
      | none => intro he; simp at he
      | some p =>
        intro he
        have he2 : e ∈ ((if hookOn = true then [(⟨true, i, p, sattrs⟩ : Event)] else []) ++
            (if ignoreTest ign p sattrs = true then ([] : List Event)
              else [(⟨false, i, p, sattrs⟩ : Event)])) ++
            (runLines parse posattrs ign hookOn sattrs (i + 1) rest).events := he
        simp only [List.mem_append] at he2
        have hcur : e.idx = i → e.pos = p →
            i ≤ e.idx ∧ ∃ raw2, (VLine.contentLine raw :: rest).get? (e.idx - i) =
              some (.contentLine raw2) ∧ parse_position posattrs raw2 = some e.pos := by
          intro h1 h2
          refine ⟨by omega, raw, ?_, by rw [h2]; exact hp⟩
          rw [h1, Nat.sub_self]
          rfl
        rcases he2 with (he2 | he2) | he2
        · have he3 : e = (⟨true, i, p, sattrs⟩ : Event) := by
            by_cases hh : hookOn = true
            · rw [if_pos hh] at he2; simpa using he2
            · rw [if_neg hh] at he2; simp at he2
          exact hcur (by rw [he3]) (by rw [he3])
        · have he3 : e = (⟨false, i, p, sattrs⟩ : Event) := by
            by_cases hig : ignoreTest ign p sattrs = true
            · rw [if_pos hig] at he2; simp at he2
            · rw [if_neg hig] at he2; simpa using he2
          exact hcur (by rw [he3]) (by rw [he3])
        · exact hstep _ he2


/-- C1: for every well-formed input (the position stream raises no
error), at every yielded position the open-tag context contains exactly
the structural tag names whose opening tag line precedes the position
and whose closing tag line, if any, follows it, each mapped to the
attributes of that opening tag: looking up any tag name in the context
at the yield agrees with the declarative context computed from the lines
preceding the yield. -/
theorem c1_positions_sattrs_exact (parse : Bool) (posattrs : List String)
    (ign : Option (Position → Sattrs → Bool)) (hookOn : Bool) (lines : List VLine)
    (hok : (positionsRun parse posattrs ign hookOn lines).error = none)
    (e : Event) (he : e ∈ (positionsRun parse posattrs ign hookOn lines).events)
    (hyield : e.isHook = false) :
    ∀ t, slookup t e.ctx = openAttrSpec parse (lines.take e.idx) t := by
  intro t
  have h := runLines_ctx_spec parse posattrs ign hookOn lines [] []
    (by simp [keysNodup]) (fun _ => rfl) e he t
  simpa using h

/-- Concrete check of C1 on a two-tag corpus. -/
theorem c1_witness :
    slookup "doc" [("doc", AttrVal.raw (some "x=\"1\"")), ("s", AttrVal.raw none)] =
      openAttrSpec false
        ([VLine.structLine false "doc" false (some "x=\"1\""),
          VLine.structLine false "s" false none,
          VLine.contentLine "hi",
          VLine.structLine true "s" false none,
          VLine.structLine true "doc" false none].take 2) "doc" :=
  c1_positions_sattrs_exact false ["w"] none false
    [VLine.structLine false "doc" false (some "x=\"1\""),
      VLine.structLine false "s" false none,
      VLine.contentLine "hi",
      VLine.structLine true "s" false none,
      VLine.structLine true "doc" false none]
    (by decide)
    ⟨false, 2, ["hi"], [("doc", AttrVal.raw (some "x=\"1\"")), ("s", AttrVal.raw none)]⟩
    (by decide) rfl "doc"

/-- C4: with no ignore predicate, a well-formed input yields exactly as
many positions as it has content lines, and every yield event points at
a content line of the input: structural tag lines never cause a yield. -/
theorem c4_positions_content_count (parse : Bool) (posattrs : List String) (hookOn : Bool)
    (lines : List VLine)
    (hok : (positionsRun parse posattrs none hookOn lines).error = none) :
    (yieldsOf (positionsRun parse posattrs none hookOn lines).events).length =
      countContent lines ∧
    ∀ e ∈ (positionsRun parse posattrs none hookOn lines).events, e.isHook = false →
      ∃ raw, lines.get? e.idx = some (.contentLine raw) := by
  refine ⟨runLines_yield_count parse posattrs hookOn lines [] 0 hok, ?_⟩
  intro e he _
  obtain ⟨_, raw, hget, _⟩ := runLines_events_content parse posattrs none hookOn lines [] 0 e he
  exact ⟨raw, by simpa using hget⟩

/-- Concrete check of C4 on a corpus with two content lines and three
structural lines. -/
theorem c4_witness :
    (yieldsOf (positionsRun false ["w"] none false
        [VLine.structLine false "doc" false none,
          VLine.contentLine "a",
          VLine.structLine false "s" true none,
          VLine.contentLine "b",
          VLine.structLine true "doc" false none]).events).length =
      countContent
        [VLine.structLine false "doc" false none,
          VLine.contentLine "a",
          VLine.structLine false "s" true none,
          VLine.contentLine "b",
          VLine.structLine true "doc" false none] ∧
    ∀ e ∈ (positionsRun false ["w"] none false
        [VLine.structLine false "doc" false none,
          VLine.contentLine "a",
          VLine.structLine false "s" true none,
          VLine.contentLine "b",
          VLine.structLine true "doc" false none]).events, e.isHook = false →
      ∃ raw, [VLine.structLine false "doc" false none,
          VLine.contentLine "a",
          VLine.structLine false "s" true none,
          VLine.contentLine "b",
          VLine.structLine true "doc" false none].get? e.idx =
        some (.contentLine raw) :=
  c4_positions_content_count false ["w"] false
    [VLine.structLine false "doc" false none,
      VLine.contentLine "a",
      VLine.structLine false "s" true none,
      VLine.contentLine "b",
      VLine.structLine true "doc" false none]
    (by decide)


theorem runLines_append (parse : Bool) (posattrs : List String)
    (ign : Option (Position → Sattrs → Bool)) (hookOn : Bool) :
    ∀ (pre post : List VLine) (sattrs : Sattrs) (i : Nat),
      runLines parse posattrs ign hookOn sattrs i (pre ++ post) =
        seqResult (runLines parse posattrs ign hookOn sattrs i pre)
          (fun s2 => runLines parse posattrs ign hookOn s2 (i + pre.length) post) := by
  intro pre
  induction pre with
  | nil =>
    intro post sattrs i
    simp [runLines_nil, seqResult]
  | cons l pre ih =>
    intro post sattrs i
    have hidx : i + (l :: pre).length = (i + 1) + pre.length := by
      simp [List.length_cons]
      omega
    rw [List.cons_append]
    cases l with
    | structLine close tag selfClose attrs =>
      cases close with
      | true =>
        rw [runLines_close, runLines_close, hidx]
        cases slookup tag sattrs with
        | none => rfl
        | some v => exact ih post (spop tag sattrs) (i + 1)
      | false =>
        cases selfClose with
        | true =>
          rw [runLines_selfclose, runLines_selfclose, hidx]
          exact ih post sattrs (i + 1)
        | false =>
          rw [runLines_open, runLines_open, hidx]
          cases slookup tag sattrs with
          | some v => rfl
          | none => exact ih post (sattrs ++ [(tag, storeAttrs parse attrs)]) (i + 1)
    | contentLine raw =>
      rw [runLines_content, runLines_content, hidx]
      cases parse_position posattrs raw with
      | none => rfl
      | some p =>
        rw [ih post sattrs (i + 1)]
        cases herr2 : (runLines parse posattrs ign hookOn sattrs (i + 1) pre).error with
        | some e2 => simp [seqResult, herr2]
        | none => simp [seqResult, herr2, List.append_assoc]


/-- C5: a closing tag whose name is not currently open fails the stream
immediately at that line with the KeyError from the dict pop, and the
following lines are never processed; an opening tag whose name is
already open fails the stream immediately at that line with the
nested-tag error; processing a self-closing tag line never mutates the
open-tag context and produces no position. -/
theorem c5_structural_errors_fatal (parse : Bool) (posattrs : List String)
    (ign : Option (Position → Sattrs → Bool)) (hookOn : Bool)
    (pre post rest : List VLine) (t : String) (sc : Bool) (attrs : Option String)
    (s : Sattrs) (i : Nat) :
    ((positionsRun parse posattrs ign hookOn pre).error = none →
      slookup t (positionsRun parse posattrs ign hookOn pre).final = none →
      positionsRun parse posattrs ign hookOn (pre ++ .structLine true t sc attrs :: post) =
        ⟨(positionsRun parse posattrs ign hookOn pre).events, some (.keyError t),
          (positionsRun parse posattrs ign hookOn pre).final⟩) ∧
    ((positionsRun parse posattrs ign hookOn pre).error = none →
      (slookup t (positionsRun parse posattrs ign hookOn pre).final).isSome = true →
      positionsRun parse posattrs ign hookOn (pre ++ .structLine false t false attrs :: post) =
        ⟨(positionsRun parse posattrs ign hookOn pre).events, some (.nestedTag t),
          (positionsRun parse posattrs ign hookOn pre).final⟩) ∧
    runLines parse posattrs ign hookOn s i (.structLine false t true attrs :: rest) =
      runLines parse posattrs ign hookOn s (i + 1) rest := by
  refine ⟨?_, ?_, runLines_selfclose parse posattrs ign hookOn s i t attrs rest⟩
  · intro herr hnone
    simp only [positionsRun] at herr hnone ⊢
    rw [runLines_append]
    simp only [seqResult, herr]
    rw [runLines_close, hnone]
    simp
  · intro herr hsome
    simp only [positionsRun] at herr hsome ⊢
    rw [runLines_append]
    simp only [seqResult, herr]
    rw [runLines_open, if_pos hsome]
    simp

/-- Concrete check of C5: closing an unopened tag, reopening an open
tag, and skipping over a self-closing tag. -/
theorem c5_witness :
    (positionsRun false ["w"] none false
        ([VLine.structLine false "doc" false none] ++
          VLine.structLine true "s" false none :: [VLine.contentLine "zzz"]) =
      ⟨[], some (.keyError "s"), [("doc", AttrVal.raw none)]⟩) ∧
    (positionsRun false ["w"] none false
        ([VLine.structLine false "doc" false none] ++
          VLine.structLine false "doc" false none :: [VLine.contentLine "zzz"]) =
      ⟨[], some (.nestedTag "doc"), [("doc", AttrVal.raw none)]⟩) ∧
    runLines false ["w"] none false [("x", AttrVal.raw none)] 5
        [VLine.structLine false "s" true none] =
      runLines false ["w"] none false [("x", AttrVal.raw none)] 6 [] :=
  ⟨(c5_structural_errors_fatal false ["w"] none false
      [VLine.structLine false "doc" false none] [VLine.contentLine "zzz"] [] "s" false none
      [] 0).1 (by decide) (by decide),
    (c5_structural_errors_fatal false ["w"] none false
      [VLine.structLine false "doc" false none] [VLine.contentLine "zzz"] [] "doc" false none
      [] 0).2.1 (by decide) (by decide),
    (c5_structural_errors_fatal false ["w"] none false [] []
      [] "s" false none [("x", AttrVal.raw none)] 5).2.2⟩


theorem hooksOf_append (a b : List Event) :
    hooksOf (a ++ b) = hooksOf a ++ hooksOf b := by
  simp [hooksOf]

theorem runLines_hook_count (parse : Bool) (posattrs : List String)
    (ign : Option (Position → Sattrs → Bool)) :
    ∀ (rest : List VLine) (sattrs : Sattrs) (i : Nat),
      (runLines parse posattrs ign true sattrs i rest).error = none →
      (hooksOf (runLines parse posattrs ign true sattrs i rest).events).length =
        countContent rest := by
  intro rest
  induction rest with
  | nil =>
    intro sattrs i _
    simp [runLines_nil, hooksOf, countContent]
  | cons l rest ih =>
    intro sattrs i herr
    cases l with
    | structLine close tag selfClose attrs =>
      rw [countContent_cons_struct]
      cases close with
      | true =>
        rw [runLines_close] at herr ⊢
        revert herr
        cases slookup tag sattrs with
        | none => intro herr; simp at herr
        | some v => intro herr; exact ih _ _ herr
      | false =>
        cases selfClose with
        | true =>
          rw [runLines_selfclose] at herr ⊢
          exact ih _ _ herr
        | false =>
          rw [runLines_open] at herr ⊢
          revert herr
          cases slookup tag sattrs with
          | some v => intro herr; simp at herr
          | none => intro herr; exact ih _ _ herr
    | contentLine raw =>
      rw [runLines_content] at herr ⊢
      rw [countContent_cons_content]
      revert herr
      cases parse_position posattrs raw with
      | none => intro herr; simp at herr
      | some p =>
        intro herr
        have herr2 : (runLines parse posattrs ign true sattrs (i + 1) rest).error = none := herr
        show (hooksOf (((if (true : Bool) = true then [(⟨true, i, p, sattrs⟩ : Event)] else []) ++
            (if ignoreTest ign p sattrs = true then ([] : List Event)
              else [(⟨false, i, p, sattrs⟩ : Event)])) ++
            (runLines parse posattrs ign true sattrs (i + 1) rest).events)).length =
          countContent rest + 1
        rw [hooksOf_append, hooksOf_append, List.length_append, List.length_append]
        have h1 : (hooksOf (if (true : Bool) = true then [(⟨true, i, p, sattrs⟩ : Event)]
            else [])).length = 1 := by
          simp [hooksOf]
        have h2 : (hooksOf (if ignoreTest ign p sattrs = true then ([] : List Event)
            else [(⟨false, i, p, sattrs⟩ : Event)])).length = 0 := by
          by_cases hig : ignoreTest ign p sattrs = true
          · rw [if_pos hig]; simp [hooksOf]
          · rw [if_neg hig]; simp [hooksOf]
        rw [h1, h2, ih _ _ herr2]
        omega

theorem runLines_hooks_ign_invariant (parse : Bool) (posattrs : List String)
    (hookOn : Bool) (ign : Option (Position → Sattrs → Bool)) :
    ∀ (rest : List VLine) (sattrs : Sattrs) (i : Nat),
      hooksOf (runLines parse posattrs ign hookOn sattrs i rest).events =
        hooksOf (runLines parse posattrs none hookOn sattrs i rest).events ∧
      (runLines parse posattrs ign hookOn sattrs i rest).error =
        (runLines parse posattrs none hookOn sattrs i rest).error ∧
      (runLines parse posattrs ign hookOn sattrs i rest).final =
        (runLines parse posattrs none hookOn sattrs i rest).final := by
  intro rest
  induction rest with
  | nil =>
    intro sattrs i
    simp [runLines_nil]
  | cons l rest ih =>
    intro sattrs i
    cases l with
    | structLine close tag selfClose attrs =>
      cases close with
      | true =>
        rw [runLines_close, runLines_close]
        cases slookup tag sattrs with
        | none => exact ⟨rfl, rfl, rfl⟩
        | some v => exact ih _ _
      | false =>
        cases selfClose with
        | true =>
          rw [runLines_selfclose, runLines_selfclose]
          exact ih _ _
        | false =>
          rw [runLines_open, runLines_open]
          cases slookup tag sattrs with
          | some v => exact ⟨rfl, rfl, rfl⟩
          | none => exact ih _ _
    | contentLine raw =>
      rw [runLines_content, runLines_content]
      cases parse_position posattrs raw with
      | none => exact ⟨rfl, rfl, rfl⟩
      | some p =>
        obtain ⟨ihh, ihe, ihf⟩ := ih sattrs (i + 1)
        refine ⟨?_, ihe, ihf⟩
        show hooksOf (((if hookOn = true then [(⟨true, i, p, sattrs⟩ : Event)] else []) ++
            (if ignoreTest ign p sattrs = true then ([] : List Event)
              else [(⟨false, i, p, sattrs⟩ : Event)])) ++
            (runLines parse posattrs ign hookOn sattrs (i + 1) rest).events) =
          hooksOf (((if hookOn = true then [(⟨true, i, p, sattrs⟩ : Event)] else []) ++
            (if ignoreTest none p sattrs = true then ([] : List Event)
              else [(⟨false, i, p, sattrs⟩ : Event)])) ++
            (runLines parse posattrs none hookOn sattrs (i + 1) rest).events)
        rw [hooksOf_append, hooksOf_append, hooksOf_append, hooksOf_append, ihh]
        have h2 : ∀ ig2 : Option (Position → Sattrs → Bool),
            hooksOf (if ignoreTest ig2 p sattrs = true then ([] : List Event)
              else [(⟨false, i, p, sattrs⟩ : Event)]) = [] := by
          intro ig2
          by_cases hig : ignoreTest ig2 p sattrs = true
          · rw [if_pos hig]; simp [hooksOf]
          · rw [if_neg hig]; simp [hooksOf]
        rw [h2, h2]



theorem runLines_hook_precedes_yield (parse : Bool) (posattrs : List String)
    (ign : Option (Position → Sattrs → Bool)) :
    ∀ (rest : List VLine) (sattrs : Sattrs) (i : Nat) (k : Nat) (e : Event),
      (runLines parse posattrs ign true sattrs i rest).events.get? k = some e →
      e.isHook = false →
      ∃ k0, k = k0 + 1 ∧
        (runLines parse posattrs ign true sattrs i rest).events.get? k0 =
          some ⟨true, e.idx, e.pos, e.ctx⟩ := by
  intro rest
  induction rest with
  | nil =>
    intro sattrs i k e hget _
    rw [runLines_nil] at hget
    simp at hget
  | cons l rest ih =>
    intro sattrs i k e hget hyield
    cases l with
    | structLine close tag selfClose attrs =>
      cases close with
      | true =>
        rw [runLines_close] at hget ⊢
        revert hget
        cases slookup tag sattrs with
        | none => intro hget; simp at hget
        | some v => intro hget; exact ih _ _ k e hget hyield
      | false =>
        cases selfClose with
        | true =>
          rw [runLines_selfclose] at hget ⊢
          exact ih _ _ k e hget hyield
        | false =>
          rw [runLines_open] at hget ⊢
          revert hget
          cases slookup tag sattrs with
          | some v => intro hget; simp at hget
          | none => intro hget; exact ih _ _ k e hget hyield
    | contentLine raw =>
      rw [runLines_content] at hget ⊢
      revert hget
      cases parse_position posattrs raw with
      | none => intro hget; simp at hget
      | some p =>
        intro hget
        have hget2 : ((((⟨true, i, p, sattrs⟩ : Event) ::
            (if ignoreTest ign p sattrs = true then ([] : List Event)
              else [(⟨false, i, p, sattrs⟩ : Event)])) ++
            (runLines parse posattrs ign true sattrs (i + 1) rest).events).get? k) =
            some e := hget
        show ∃ k0, k = k0 + 1 ∧
          (((⟨true, i, p, sattrs⟩ : Event) ::
            (if ignoreTest ign p sattrs = true then ([] : List Event)
              else [(⟨false, i, p, sattrs⟩ : Event)])) ++
            (runLines parse posattrs ign true sattrs (i + 1) rest).events).get? k0 =
            some ⟨true, e.idx, e.pos, e.ctx⟩
        by_cases hig : ignoreTest ign p sattrs = true
        · rw [if_pos hig] at hget2 ⊢
          simp only [List.cons_append, List.nil_append] at hget2 ⊢
          match k, hget2 with
          | 0, hget2 =>
            have he : e = ⟨true, i, p, sattrs⟩ := by
              simpa using hget2.symm
            rw [he] at hyield
            simp at hyield
          | Nat.succ n, hget2 =>
            rw [List.get?_cons_succ] at hget2
            obtain ⟨k0, hk, hg0⟩ := ih sattrs (i + 1) n e hget2 hyield
            refine ⟨k0 + 1, by omega, ?_⟩
            rw [List.get?_cons_succ]
            exact hg0
        · rw [if_neg hig] at hget2 ⊢
          simp only [List.cons_append, List.singleton_append] at hget2 ⊢
          match k, hget2 with
          | 0, hget2 =>
            have he : e = ⟨true, i, p, sattrs⟩ := by
              simpa using hget2.symm
            rw [he] at hyield
            simp at hyield
          | 1, hget2 =>
            have he : e = ⟨false, i, p, sattrs⟩ := by
              simpa using hget2.symm
            refine ⟨0, rfl, ?_⟩
            rw [he]
            rfl
          | Nat.succ (Nat.succ n), hget2 =>
            rw [List.get?_cons_succ, List.get?_cons_succ] at hget2
            obtain ⟨k0, hk, hg0⟩ := ih sattrs (i + 1) n e hget2 hyield
            refine ⟨k0 + 2, by omega, ?_⟩
            rw [List.get?_cons_succ, List.get?_cons_succ]
            exact hg0



theorem runLines_yield_iff_not_ignored (parse : Bool) (posattrs : List String)
    (ign : Option (Position → Sattrs → Bool)) :
    ∀ (rest : List VLine) (sattrs : Sattrs) (i : Nat) (e : Event),
      e ∈ (runLines parse posattrs ign true sattrs i rest).events →
      e.isHook = true →
      ((∃ e2 ∈ (runLines parse posattrs ign true sattrs i rest).events,
          e2.isHook = false ∧ e2.idx = e.idx) ↔ ignoreTest ign e.pos e.ctx = false) := by
  intro rest
  induction rest with
  | nil =>
    intro sattrs i e he _
    rw [runLines_nil] at he
    simp at he
  | cons l rest ih =>
    intro sattrs i e he hhook
    cases l with
    | structLine close tag selfClose attrs =>
      cases close with
      | true =>
        rw [runLines_close] at he ⊢
        revert he
        cases slookup tag sattrs with
        | none => intro he; simp at he
        | some v => intro he; exact ih _ _ e he hhook
      | false =>
        cases selfClose with
        | true =>
          rw [runLines_selfclose] at he ⊢
          exact ih _ _ e he hhook
        | false =>
          rw [runLines_open] at he ⊢
          revert he
          cases slookup tag sattrs with
          | some v => intro he; simp at he
          | none => intro he; exact ih _ _ e he hhook
    | contentLine raw =>
      rw [runLines_content] at he ⊢
      revert he
      cases parse_position posattrs raw with
      | none => intro he; simp at he
      | some p =>
        intro he
        have he2 : e ∈ ((⟨true, i, p, sattrs⟩ : Event) ::
            (if ignoreTest ign p sattrs = true then ([] : List Event)
              else [(⟨false, i, p, sattrs⟩ : Event)])) ++
            (runLines parse posattrs ign true sattrs (i + 1) rest).events := he
        show (∃ e2 ∈ ((⟨true, i, p, sattrs⟩ : Event) ::
            (if ignoreTest ign p sattrs = true then ([] : List Event)
              else [(⟨false, i, p, sattrs⟩ : Event)])) ++
            (runLines parse posattrs ign true sattrs (i + 1) rest).events,
            e2.isHook = false ∧ e2.idx = e.idx) ↔ ignoreTest ign e.pos e.ctx = false
        have hbound : ∀ e3 ∈ (runLines parse posattrs ign true sattrs (i + 1) rest).events,
            i + 1 ≤ e3.idx := fun e3 h3 =>
          (runLines_events_content parse posattrs ign true rest sattrs (i + 1) e3 h3).1
        rw [List.cons_append, List.mem_cons] at he2
        rcases he2 with he2 | he2
        · subst he2
          dsimp only
          by_cases hig : ignoreTest ign p sattrs = true
          · rw [if_pos hig, hig]
            simp only [List.cons_append, List.nil_append]
            constructor
            · rintro ⟨e2, hm, hf, hidx⟩
              rw [List.mem_cons] at hm
              rcases hm with hm | hm
              · rw [hm] at hf
                simp at hf
              · have hb := hbound e2 hm
                omega
            · intro hfalse
              exact absurd hfalse (by simp)
          · have hig2 : ignoreTest ign p sattrs = false := by
              cases hB : ignoreTest ign p sattrs
              · rfl
              · exact absurd hB hig
            rw [if_neg hig, hig2]
            constructor
            · intro _
              rfl
            · intro _
              refine ⟨⟨false, i, p, sattrs⟩, ?_, rfl, rfl⟩
              rw [List.cons_append, List.mem_cons]
              refine Or.inr ?_
              rw [List.cons_append, List.mem_cons]
              exact Or.inl rfl
        · have he3 : e ∈ (runLines parse posattrs ign true sattrs (i + 1) rest).events := by
            rw [List.mem_append] at he2
            rcases he2 with he2 | he2
            · by_cases hig : ignoreTest ign p sattrs = true
              · rw [if_pos hig] at he2
                simp at he2
              · rw [if_neg hig] at he2
                rw [List.mem_singleton] at he2
                rw [he2] at hhook
                simp at hhook
            · exact he2
          have hbe := hbound e he3
          have iff2 := ih sattrs (i + 1) e he3 hhook
          rw [← iff2]
          constructor
          · rintro ⟨e2, hm, hf, hidx⟩
            rw [List.mem_append] at hm
            rcases hm with hm | hm
            · rw [List.mem_cons] at hm
              rcases hm with hm | hm
              · rw [hm] at hf
                simp at hf
              · have hi2 : e2.idx = i := by
                  by_cases hig : ignoreTest ign p sattrs = true
                  · rw [if_pos hig] at hm
                    simp at hm
                  · rw [if_neg hig] at hm
                    rw [List.mem_singleton] at hm
                    rw [hm]
                omega
            · exact ⟨e2, hm, hf, hidx⟩
          · rintro ⟨e2, hm, hf, hidx⟩
            refine ⟨e2, ?_, hf, hidx⟩
            rw [List.mem_append]
            exact Or.inr hm



/-- C8: with a hook function supplied, the hook is invoked exactly once
per content line with the position and the open-tag context (the number
of hook events equals the number of content lines, and the hook trace is
unchanged when the ignore predicate is dropped), every yield event is
immediately preceded by the hook event carrying the same line index,
position and context (the hook runs before the ignore predicate is
consulted), and for each hook event a yield with the same line index
exists exactly when the ignore predicate does not hold there. -/
theorem c8_hook_unconditional (parse : Bool) (posattrs : List String)
    (ign : Option (Position → Sattrs → Bool)) (lines : List VLine)
    (hok : (positionsRun parse posattrs ign true lines).error = none) :
    (hooksOf (positionsRun parse posattrs ign true lines).events).length =
      countContent lines ∧
    hooksOf (positionsRun parse posattrs ign true lines).events =
      hooksOf (positionsRun parse posattrs none true lines).events ∧
    (∀ (k : Nat) (e : Event),
      (positionsRun parse posattrs ign true lines).events.get? k = some e →
      e.isHook = false →
      ∃ k0, k = k0 + 1 ∧ (positionsRun parse posattrs ign true lines).events.get? k0 =
        some ⟨true, e.idx, e.pos, e.ctx⟩) ∧
    (∀ e ∈ (positionsRun parse posattrs ign true lines).events, e.isHook = true →
      ((∃ e2 ∈ (positionsRun parse posattrs ign true lines).events,
          e2.isHook = false ∧ e2.idx = e.idx) ↔ ignoreTest ign e.pos e.ctx = false)) :=
  ⟨runLines_hook_count parse posattrs ign lines [] 0 hok,
    (runLines_hooks_ign_invariant parse posattrs true ign lines [] 0).1,
    fun k e => runLines_hook_precedes_yield parse posattrs ign lines [] 0 k e,
    fun e he hh => runLines_yield_iff_not_ignored parse posattrs ign lines [] 0 e he hh⟩

/-- Concrete check of C8 with an ignore predicate that drops one of the
two content positions. -/
theorem c8_witness :
    (hooksOf (positionsRun false ["w"] (some fun p _ => p == ["a"]) true
        [VLine.contentLine "a", VLine.contentLine "b"]).events).length =
      countContent [VLine.contentLine "a", VLine.contentLine "b"] ∧
    hooksOf (positionsRun false ["w"] (some fun p _ => p == ["a"]) true
        [VLine.contentLine "a", VLine.contentLine "b"]).events =
      hooksOf (positionsRun false ["w"] none true
        [VLine.contentLine "a", VLine.contentLine "b"]).events ∧
    (∀ (k : Nat) (e : Event),
      (positionsRun false ["w"] (some fun p _ => p == ["a"]) true
        [VLine.contentLine "a", VLine.contentLine "b"]).events.get? k = some e →
      e.isHook = false →
      ∃ k0, k = k0 + 1 ∧ (positionsRun false ["w"] (some fun p _ => p == ["a"]) true
        [VLine.contentLine "a", VLine.contentLine "b"]).events.get? k0 =
        some ⟨true, e.idx, e.pos, e.ctx⟩) ∧
    (∀ e ∈ (positionsRun false ["w"] (some fun p _ => p == ["a"]) true
        [VLine.contentLine "a", VLine.contentLine "b"]).events, e.isHook = true →
      ((∃ e2 ∈ (positionsRun false ["w"] (some fun p _ => p == ["a"]) true
          [VLine.contentLine "a", VLine.contentLine "b"]).events,
          e2.isHook = false ∧ e2.idx = e.idx) ↔
        ignoreTest (some fun p _ => p == ["a"]) e.pos e.ctx = false)) :=
  c8_hook_unconditional false ["w"] (some fun p _ => p == ["a"])
    [VLine.contentLine "a", VLine.contentLine "b"] (by decide)

/-- C6: when the position stream completes without error but yields
nothing, search does not return an index and a count: the loop body
never ran, the loop variable was never bound, and the return statement
raises the NameError. -/
theorem c6_search_empty_name_error {K : Type} [DecidableEq K]
    (match_fn : Position → Sattrs → Bool) (count_fn : Position → Sattrs → CountVal K)
    (parse : Bool) (posattrs : List String) (ign : Option (Position → Sattrs → Bool))
    (hookOn : Bool) (lines : List VLine)
    (hok : (positionsRun parse posattrs ign hookOn lines).error = none)
    (hempty : yieldsOf (positionsRun parse posattrs ign hookOn lines).events = []) :
    search match_fn count_fn parse posattrs ign hookOn lines =
      .error .nameError := by
  simp [search, hok, hempty]

/-- Concrete check of C6 on a corpus made only of tag lines. -/
theorem c6_witness :
    search (K := Nat) (fun _ _ => true) (fun _ _ => CountVal.single 0) false ["w"] none false
        [VLine.structLine false "doc" false none, VLine.structLine true "doc" false none] =
      .error .nameError :=
  c6_search_empty_name_error (fun _ _ => true) (fun _ _ => CountVal.single 0) false ["w"]
    none false
    [VLine.structLine false "doc" false none, VLine.structLine true "doc" false none]
    (by decide) (by decide)


theorem search_eq_ok {K : Type} [DecidableEq K]
    (match_fn : Position → Sattrs → Bool) (count_fn : Position → Sattrs → CountVal K)
    (parse : Bool) (posattrs : List String) (ign : Option (Position → Sattrs → Bool))
    (hookOn : Bool) (lines : List VLine)
    (hok : (positionsRun parse posattrs ign hookOn lines).error = none)
    (hne : yieldsOf (positionsRun parse posattrs ign hookOn lines).events ≠ []) :
    search match_fn count_fn parse posattrs ign hookOn lines =
      .ok (buildIndexFrom match_fn count_fn 0
          (yieldsOf (positionsRun parse posattrs ign hookOn lines).events) [],
        (yieldsOf (positionsRun parse posattrs ign hookOn lines).events).length - 1) := by
  cases hys : yieldsOf (positionsRun parse posattrs ign hookOn lines).events with
  | nil => exact absurd hys hne
  | cons y ys2 =>
    simp [search, hok, hys]

theorem buildIndexFrom_const {K : Type} [DecidableEq K] (k0 : K) :
    ∀ (ys : List (Position × Sattrs)) (m : Nat) (l : List Nat),
      buildIndexFrom (fun _ _ => true) (fun _ _ => CountVal.single k0) m ys [(k0, l)] =
        [(k0, l ++ List.range' m ys.length)] := by
  intro ys
  induction ys with
  | nil =>
    intro m l
    simp [buildIndexFrom]
  | cons y ys ih =>
    intro m l
    have hstep : indexStep (fun _ _ => true) (fun _ _ => CountVal.single k0)
        [(k0, l)] m y = [(k0, l ++ [m])] := by
      simp [indexStep, appendAt]
    rw [buildIndexFrom, hstep, ih (m + 1) (l ++ [m])]
    rw [List.length_cons, List.range'_succ, List.append_assoc, List.singleton_append]

theorem buildIndexFrom_const_range {K : Type} [DecidableEq K] (k0 : K)
    (ys : List (Position × Sattrs)) (hne : ys ≠ []) :
    buildIndexFrom (fun _ _ => true) (fun _ _ => CountVal.single k0) 0 ys [] =
      [(k0, List.range ys.length)] := by
  cases ys with
  | nil => exact absurd rfl hne
  | cons y ys2 =>
    have hstep : indexStep (fun _ _ => true) (fun _ _ => CountVal.single k0)
        ([] : List (K × List Nat)) 0 y = [(k0, [0])] := by
      simp [indexStep, appendAt]
    rw [buildIndexFrom, hstep, buildIndexFrom_const k0 ys2 1 [0]]
    rw [List.range_eq_range', List.length_cons, List.range'_succ, List.singleton_append]

/-- C3: with an always-true match predicate and a constant count key,
search over a well-formed corpus with at least one content position and
no ignore predicate returns exactly one index entry whose offset list is
0, 1, ..., total-1, together with the final loop-counter value
total-1, where total is the number of content positions. -/
theorem c3_search_const_key {K : Type} [DecidableEq K] (k0 : K)
    (parse : Bool) (posattrs : List String) (hookOn : Bool) (lines : List VLine)
    (hok : (positionsRun parse posattrs none hookOn lines).error = none)
    (hne : 0 < countContent lines) :
    search (fun _ _ => true) (fun _ _ => CountVal.single k0) parse posattrs none hookOn
        lines =
      .ok ([(k0, List.range (countContent lines))], countContent lines - 1) := by
  have hlen : (yieldsOf (positionsRun parse posattrs none hookOn lines).events).length =
      countContent lines := runLines_yield_count parse posattrs hookOn lines [] 0 hok
  have hne2 : yieldsOf (positionsRun parse posattrs none hookOn lines).events ≠ [] := by
    intro hcon
    rw [hcon] at hlen
    simp at hlen
    omega
  rw [search_eq_ok (fun _ _ => true) (fun _ _ => CountVal.single k0) parse posattrs none
    hookOn lines hok hne2]
  rw [buildIndexFrom_const_range k0 _ hne2, hlen]

/-- Concrete check of C3 on a corpus with three content positions. -/
theorem c3_witness :
    search (K := Nat) (fun _ _ => true) (fun _ _ => CountVal.single 7) false ["w"] none
        false
        [VLine.structLine false "doc" false none, VLine.contentLine "a",
          VLine.contentLine "b", VLine.contentLine "c",
          VLine.structLine true "doc" false none] =
      .ok ([(7, List.range (countContent
          [VLine.structLine false "doc" false none, VLine.contentLine "a",
            VLine.contentLine "b", VLine.contentLine "c",
            VLine.structLine true "doc" false none]))],
        countContent
          [VLine.structLine false "doc" false none, VLine.contentLine "a",
            VLine.contentLine "b", VLine.contentLine "c",
            VLine.structLine true "doc" false none] - 1) :=
  c3_search_const_key 7 false ["w"] false
    [VLine.structLine false "doc" false none, VLine.contentLine "a",
      VLine.contentLine "b", VLine.contentLine "c",
      VLine.structLine true "doc" false none]
    (by decide) (by decide)



theorem appendAt_sound {K : Type} [DecidableEq K] (P : K → Nat → Prop)
    (c : K) (m : Nat) (hc : P c m) :
    ∀ idx : List (K × List Nat),
      (∀ q ∈ idx, ∀ o ∈ q.2, P q.1 o) →
      ∀ q ∈ appendAt idx c m, ∀ o ∈ q.2, P q.1 o := by
  intro idx
  induction idx with
  | nil =>
    intro _ q hq o ho
    simp only [appendAt, List.mem_singleton] at hq
    rw [hq] at ho ⊢
    rw [List.mem_singleton] at ho
    rw [ho]
    exact hc
  | cons q0 idx ih =>
    intro hidx q hq o ho
    obtain ⟨k0, l0⟩ := q0
    rw [appendAt] at hq
    by_cases hk : k0 = c
    · rw [if_pos hk] at hq
      rw [List.mem_cons] at hq
      rcases hq with hq | hq
      · rw [hq] at ho ⊢
        rw [List.mem_append] at ho
        rcases ho with ho | ho
        · exact hidx (k0, l0) (List.mem_cons_self _ _) o ho
        · rw [List.mem_singleton] at ho
          rw [ho]
          exact hk ▸ hc
      · exact hidx q (List.mem_cons_of_mem _ hq) o ho
    · rw [if_neg hk] at hq
      rw [List.mem_cons] at hq
      rcases hq with hq | hq
      · rw [hq] at ho ⊢
        exact hidx (k0, l0) (List.mem_cons_self _ _) o ho
      · exact ih (fun q2 hq2 => hidx q2 (List.mem_cons_of_mem _ hq2)) q hq o ho

theorem buildIndexFrom_sound {K : Type} [DecidableEq K]
    (match_fn : Position → Sattrs → Bool) (count_fn : Position → Sattrs → CountVal K)
    (Good : K → Nat → Prop) :
    ∀ (ys : List (Position × Sattrs)) (m : Nat) (idx : List (K × List Nat)),
      (∀ q ∈ idx, ∀ o ∈ q.2, Good q.1 o) →
      (∀ (j : Nat) (ps : Position × Sattrs), ys.get? j = some ps →
        ∀ k : K, match_fn ps.1 ps.2 = true → keyMem k (count_fn ps.1 ps.2) →
        Good k (m + j)) →
      ∀ q ∈ buildIndexFrom match_fn count_fn m ys idx, ∀ o ∈ q.2, Good q.1 o := by
  intro ys
  induction ys with
  | nil =>
    intro m idx hidx _
    simpa [buildIndexFrom] using hidx
  | cons y ys ih =>
    intro m idx hidx hys
    rw [buildIndexFrom]
    apply ih (m + 1)
    · intro q hq o ho
      revert hq
      rw [indexStep]
      by_cases hm : match_fn y.1 y.2 = true
      · rw [if_pos hm]
        cases hc : count_fn y.1 y.2 with
        | single c =>
          intro hq
          have hgc : Good c m := by
            have := hys 0 y rfl c hm (by rw [hc]; exact rfl)
            simpa using this
          exact appendAt_sound Good c m hgc idx hidx q hq o ho
        | multi cs =>
          intro hq
          have hfold : ∀ cs2 : List K, (∀ c ∈ cs2, Good c m) →
              ∀ idx2 : List (K × List Nat), (∀ q2 ∈ idx2, ∀ o2 ∈ q2.2, Good q2.1 o2) →
              ∀ q2 ∈ cs2.foldl (fun a c => appendAt a c m) idx2, ∀ o2 ∈ q2.2,
                Good q2.1 o2 := by
            intro cs2
            induction cs2 with
            | nil =>
              intro _ idx2 h2 q2 hq2 o2 ho2
              exact h2 q2 hq2 o2 ho2
            | cons c cs2 ih2 =>
              intro hall idx2 h2 q2 hq2 o2 ho2
              exact ih2 (fun c2 h => hall c2 (List.mem_cons_of_mem _ h))
                (appendAt idx2 c m)
                (appendAt_sound Good c m (hall c (List.mem_cons_self _ _)) idx2 h2)
                q2 hq2 o2 ho2
          have hall : ∀ c ∈ cs, Good c m := by
            intro c hcm
            have := hys 0 y rfl c hm (by rw [hc]; exact hcm)
            simpa using this
          exact hfold cs hall idx hidx q hq o ho
      · rw [if_neg hm]
        intro hq
        exact hidx q hq o ho
    · intro j ps hget k hm hk
      have hrel : m + (j + 1) = m + 1 + j := by omega
      have := hys (j + 1) ps (by rw [List.get?_cons_succ]; exact hget) k hm hk
      rw [hrel] at this
      exact this

theorem runLines_yield_le (parse : Bool) (posattrs : List String)
    (ign : Option (Position → Sattrs → Bool)) (hookOn : Bool) :
    ∀ (rest : List VLine) (sattrs : Sattrs) (i : Nat),
      (yieldsOf (runLines parse posattrs ign hookOn sattrs i rest).events).length ≤
        countContent rest := by
  intro rest
  induction rest with
  | nil =>
    intro sattrs i
    simp [runLines_nil, yieldsOf, countContent]
  | cons l rest ih =>
    intro sattrs i
    cases l with
    | structLine close tag selfClose attrs =>
      rw [countContent_cons_struct]
      cases close with
      | true =>
        rw [runLines_close]
        cases slookup tag sattrs with
        | none => simp [yieldsOf]
        | some v => exact ih _ _
      | false =>
        cases selfClose with
        | true =>
          rw [runLines_selfclose]
          exact ih _ _
        | false =>
          rw [runLines_open]
          cases slookup tag sattrs with
          | some v => simp [yieldsOf]
          | none => exact ih _ _
    | contentLine raw =>
      rw [runLines_content, countContent_cons_content]
      cases parse_position posattrs raw with
      | none => simp [yieldsOf]
      | some p =>
        have hgoal : (yieldsOf (((if hookOn = true then [(⟨true, i, p, sattrs⟩ : Event)]
            else []) ++
            (if ignoreTest ign p sattrs = true then ([] : List Event)
              else [(⟨false, i, p, sattrs⟩ : Event)])) ++
            (runLines parse posattrs ign hookOn sattrs (i + 1) rest).events)).length ≤
            countContent rest + 1 := by
          rw [yieldsOf_append, yieldsOf_append, List.length_append, List.length_append]
          have h1 : (yieldsOf (if hookOn = true then [(⟨true, i, p, sattrs⟩ : Event)]
              else [])).length = 0 := by
            by_cases hh : hookOn = true
            · rw [if_pos hh]; simp [yieldsOf]
            · rw [if_neg hh]; simp [yieldsOf]
          have h2 : (yieldsOf (if ignoreTest ign p sattrs = true then ([] : List Event)
              else [(⟨false, i, p, sattrs⟩ : Event)])).length ≤ 1 := by
            by_cases hig : ignoreTest ign p sattrs = true
            · rw [if_pos hig]; simp [yieldsOf]
            · rw [if_neg hig]; simp [yieldsOf]
          have h3 := ih sattrs (i + 1)
          omega
        exact hgoal



/-- C9: when an ignore predicate is passed through search, the offsets
recorded in the index are 0-based indices into the filtered yield
stream: every recorded offset designates a yielded (non-ignored)
position at which the match predicate held and the key was produced,
the returned counter equals the number of non-ignored yields minus one,
and the yield count never exceeds the content-line count: an ignored
content position consumes no offset. -/
theorem c9_search_offsets_filtered {K : Type} [DecidableEq K]
    (match_fn : Position → Sattrs → Bool) (count_fn : Position → Sattrs → CountVal K)
    (parse : Bool) (posattrs : List String) (ign : Option (Position → Sattrs → Bool))
    (hookOn : Bool) (lines : List VLine)
    (hok : (positionsRun parse posattrs ign hookOn lines).error = none)
    (hne : yieldsOf (positionsRun parse posattrs ign hookOn lines).events ≠ []) :
    ∃ idx, search match_fn count_fn parse posattrs ign hookOn lines =
        .ok (idx,
          (yieldsOf (positionsRun parse posattrs ign hookOn lines).events).length - 1) ∧
      (∀ q ∈ idx, ∀ o ∈ q.2,
        ∃ ps, (yieldsOf (positionsRun parse posattrs ign hookOn lines).events).get? o =
            some ps ∧
          match_fn ps.1 ps.2 = true ∧ keyMem q.1 (count_fn ps.1 ps.2)) ∧
      (yieldsOf (positionsRun parse posattrs ign hookOn lines).events).length ≤
        countContent lines := by
  refine ⟨buildIndexFrom match_fn count_fn 0
      (yieldsOf (positionsRun parse posattrs ign hookOn lines).events) [],
    search_eq_ok match_fn count_fn parse posattrs ign hookOn lines hok hne, ?_,
    runLines_yield_le parse posattrs ign hookOn lines [] 0⟩
  intro q hq o ho
  refine buildIndexFrom_sound match_fn count_fn
    (fun k o2 => ∃ ps,
      (yieldsOf (positionsRun parse posattrs ign hookOn lines).events).get? o2 =
        some ps ∧ match_fn ps.1 ps.2 = true ∧ keyMem k (count_fn ps.1 ps.2))
    (yieldsOf (positionsRun parse posattrs ign hookOn lines).events) 0 []
    (by simp) ?_ q hq o ho
  intro j ps hget k hm hk
  exact ⟨ps, by simpa using hget, hm, hk⟩

/-- Concrete check of C9: one of three content positions is ignored, the
offsets index the two remaining yields and the counter is their number
minus one. -/
theorem c9_witness :
    ∃ idx, search (K := Nat) (fun _ _ => true) (fun _ _ => CountVal.single 5) false ["w"]
        (some fun p _ => p == ["a"]) false
        [VLine.contentLine "a", VLine.contentLine "b", VLine.contentLine "c"] =
        .ok (idx,
          (yieldsOf (positionsRun false ["w"] (some fun p _ => p == ["a"]) false
            [VLine.contentLine "a", VLine.contentLine "b",
              VLine.contentLine "c"]).events).length - 1) ∧
      (∀ q ∈ idx, ∀ o ∈ q.2,
        ∃ ps, (yieldsOf (positionsRun false ["w"] (some fun p _ => p == ["a"]) false
            [VLine.contentLine "a", VLine.contentLine "b",
              VLine.contentLine "c"]).events).get? o = some ps ∧
          (fun (_ : Position) (_ : Sattrs) => true) ps.1 ps.2 = true ∧
          keyMem q.1 ((fun (_ : Position) (_ : Sattrs) => CountVal.single 5) ps.1 ps.2)) ∧
      (yieldsOf (positionsRun false ["w"] (some fun p _ => p == ["a"]) false
          [VLine.contentLine "a", VLine.contentLine "b",
            VLine.contentLine "c"]).events).length ≤
        countContent [VLine.contentLine "a", VLine.contentLine "b",
          VLine.contentLine "c"] :=
  c9_search_offsets_filtered (fun _ _ => true) (fun _ _ => CountVal.single 5) false ["w"]
    (some fun p _ => p == ["a"]) false
    [VLine.contentLine "a", VLine.contentLine "b", VLine.contentLine "c"]
    (by decide) (by decide)


theorem roll1_cons (l : List Int) (h : l ≠ []) :
    roll1 l = l.getLast h :: l.dropLast := by
  rw [roll1, List.getLast?_eq_getLast_of_ne_nil h]

theorem roll1_length (l : List Int) (h : l ≠ []) : (roll1 l).length = l.length := by
  have hp : 0 < l.length := List.length_pos.mpr h
  rw [roll1_cons l h]
  simp only [List.length_cons, List.length_dropLast]
  omega

theorem roll1_get? (l : List Int) (h : l ≠ []) (j : Nat) (hj : j < l.length) :
    (roll1 l).get? j = l.get? ((j + l.length - 1) % l.length) := by
  have hp : 0 < l.length := List.length_pos.mpr h
  rw [roll1_cons l h]
  cases j with
  | zero =>
    rw [List.get?_cons_zero]
    have hidx : (0 + l.length - 1) % l.length = l.length - 1 := by
      rw [Nat.zero_add]
      exact Nat.mod_eq_of_lt (by omega)
    rw [hidx, List.get?_eq_get (show l.length - 1 < l.length by omega)]
    rw [List.getLast_eq_getElem]
    rfl
  | succ i =>
    rw [List.get?_cons_succ]
    have hidx : (i + 1 + l.length - 1) % l.length = i := by
      have h2 : i + 1 + l.length - 1 = i + l.length := by omega
      rw [h2, Nat.add_mod_right]
      exact Nat.mod_eq_of_lt (by omega)
    rw [hidx]
    have hi : i < l.dropLast.length := by
      rw [List.length_dropLast]
      omega
    rw [List.get?_eq_get hi, List.get?_eq_get (show i < l.length by omega)]
    exact congrArg some (List.getElem_dropLast l i hi)

theorem distances_eq_ofFn (N : Int) (occ : List Int) (h : occ ≠ []) :
    List.zipWith (fun a b => (a - b) % N) occ (roll1 occ) =
      List.ofFn (fun k : Fin occ.length =>
        (occ.get k - occ.get ⟨(k.val + occ.length - 1) % occ.length,
          Nat.mod_lt _ (List.length_pos.mpr h)⟩) % N) := by
  have hp : 0 < occ.length := List.length_pos.mpr h
  have hroll := roll1_length occ h
  have hlen1 : (List.zipWith (fun a b => (a - b) % N) occ (roll1 occ)).length =
      occ.length := by
    rw [List.length_zipWith, hroll, Nat.min_self]
  apply List.ext_get (by rw [hlen1, List.length_ofFn])
  intro j h1 h2
  rw [List.get_ofFn, List.get_zipWith]
  have hj : j < occ.length := by rw [hlen1] at h1; exact h1
  have hrg : (roll1 occ).get ⟨j, List.lt_length_right_of_zipWith h1⟩ =
      occ.get ⟨(j + occ.length - 1) % occ.length, Nat.mod_lt _ hp⟩ := by
    have hq := roll1_get? occ h j hj
    rw [List.get?_eq_get (show j < (roll1 occ).length by rw [hroll]; exact hj),
      List.get?_eq_get (Nat.mod_lt _ hp)] at hq
    exact Option.some.inj hq
  rw [hrg]
  rfl

/-- C2: arf equals the claim formula, summing over all k the saturated
circular distance from occurrence k-1 (wrapping to the last occurrence
for k = 0) to occurrence k, divided by the average distance; arf of the
empty list is 0; and the two numeric examples hold exactly: uniform
occurrences 0, 25, 50, 75 in a corpus of size 100 give 4, and clustered
occurrences 0, 1, 2, 3 give 1.12. -/
theorem c2_arf_formula (occurrences : List Int) (N : Int)
    (hN : 0 < N) (hne : occurrences ≠ [])
    (hsort : List.Chain' (fun a b => a < b) occurrences)
    (hrange : ∀ x ∈ occurrences, 0 ≤ x ∧ x < N) :
    arf occurrences N = arfClaimFormula occurrences N ∧
    arf [] N = 0 ∧
    arf [0, 25, 50, 75] 100 = 4 ∧
    arf [0, 1, 2, 3] 100 = 1.12 := by
  refine ⟨?_, rfl, by norm_num [arf, roll1], by norm_num [arf, roll1]⟩
  have hne2 : occurrences.length ≠ 0 := by
    intro hcon
    exact hne (List.length_eq_zero.mp hcon)
  simp only [arf, arfClaimFormula]
  rw [if_neg hne2]
  rw [distances_eq_ofFn N occurrences hne]
  rw [List.map_ofFn, List.sum_ofFn]
  rfl

/-- Concrete check of C2 at the uniform example. -/
theorem c2_witness :
    arf [0, 25, 50, 75] 100 = arfClaimFormula [0, 25, 50, 75] 100 ∧
    arf [] 100 = 0 ∧
    arf [0, 25, 50, 75] 100 = 4 ∧
    arf [0, 1, 2, 3] 100 = 1.12 :=
  c2_arf_formula [0, 25, 50, 75] 100 (by norm_num) (by decide)
    (by norm_num [List.chain'_cons]) (by decide)

/-- C7: ipm returns one million times the occurrence count divided by N
whenever N is positive, and for N = 0 it raises ZeroDivisionError
instead of returning a value. -/
theorem c7_ipm_spec (occurrences : List Int) (N : Int) (hN : 0 < N) :
    ipm occurrences N = .ok (1000000 * (occurrences.length : ℚ) / (N : ℚ)) ∧
    ipm occurrences 0 = .error .zeroDivision := by
  constructor
  · rw [ipm, if_neg (by omega)]
  · rw [ipm, if_pos rfl]

/-- Concrete check of C7 at the spec example of three occurrences in a
corpus of one million positions. -/
theorem c7_witness :
    ipm [1, 2, 3] 1000000 =
      .ok (1000000 * (([1, 2, 3] : List Int).length : ℚ) / ((1000000 : Int) : ℚ)) ∧
    ipm [1, 2, 3] 0 = .error .zeroDivision :=
  c7_ipm_spec [1, 2, 3] 1000000 (by norm_num)

/-- C10: the positions generator is deterministic and carries no state
from one invocation to the next: the generator body resets self.sattrs
to the empty dict, so two invocations over the same input with the same
arguments produce identical event sequences (identical positions and
identical context snapshots at corresponding offsets), whatever the
object state left by earlier invocations, and rerunning after a
completed run reproduces the same result. -/
theorem c10_positions_deterministic (s1 s2 : Sattrs) (parse : Bool)
    (posattrs : List String) (ign : Option (Position → Sattrs → Bool)) (hookOn : Bool)
    (lines : List VLine) :
    positionsMethod s1 parse posattrs ign hookOn lines =
      positionsMethod s2 parse posattrs ign hookOn lines ∧
    positionsMethod (positionsMethod s1 parse posattrs ign hookOn lines).final
        parse posattrs ign hookOn lines =
      positionsMethod s1 parse posattrs ign hookOn lines :=
  ⟨rfl, rfl⟩

end Corpy
